import Mathlib

/-!
Verification of `3-first-mesh/print_glb_header.py`.

The script reads a glB container file, validates the five little-endian
u32 header fields (magic, version, totalLength, chunkLength, chunkType),
extracts the byte range `[20, 20 + chunkLength)`, parses it with
`json.loads`, and prints it back with `json.dumps(indent=2)`.

The embedding models:
  * file contents as `List Byte` (`Byte := Fin 256`);
  * the JSON data model (`Json`) with integer numbers — JSON texts whose
    numbers carry a fractional part or exponent denote IEEE-754 floats,
    which are outside the scope of this embedding, so the modelled parser
    rejects them (likewise the float constants `NaN`/`Infinity`);
  * `json.dumps(v, indent=2)` (`dumps`), including `ensure_ascii`
    escaping with `\uXXXX` sequences and surrogate pairs;
  * `json.loads` (`loads` on text, `loadsBytes` on bytes), including the
    CPython scanner's whitespace handling, strict string scanning, the
    no-leading-zero number grammar, and dict construction semantics
    (duplicate keys: first position wins, last value wins).  Lone
    surrogates, which CPython admits into `str`, are not representable
    in Lean's `Char`, so the modelled string scanner rejects them;
  * the process outcome (`ProgResult`): `exit code stdout` for
    `sys.exit`/normal termination, `exc stdout` for an uncaught
    exception (`struct.error`, `UnicodeDecodeError`, `JSONDecodeError`,
    `FileNotFoundError`, `IndexError`).
-/

set_option maxHeartbeats 1600000

namespace PyGlb

/-- A JSON value as produced by `json.loads`: numbers restricted to
integers (see the module comment), strings as lists of Unicode scalar
values, objects as insertion-ordered association lists (Python dicts). -/
inductive Json where
  | null
  | bool (b : Bool)
  | num (z : Int)
  | str (s : List Char)
  | arr (xs : List Json)
  | obj (kvs : List (List Char × Json))

instance : Inhabited Json := ⟨Json.null⟩

mutual

/-- Structural size of a JSON value; used as the parser fuel bound. -/
def jsize : Json → Nat
  | .null => 1
  | .bool _ => 1
  | .num _ => 1
  | .str _ => 1
  | .arr xs => 1 + jsizeA xs
  | .obj kvs => 1 + jsizeO kvs

def jsizeA : List Json → Nat
  | [] => 0
  | x :: xs => 1 + jsize x + jsizeA xs

def jsizeO : List (List Char × Json) → Nat
  | [] => 0
  | kv :: kvs => 1 + jsize kv.2 + jsizeO kvs

end

/-- Decimal digit character, `digitChar 3 = '3'` (total, clamped at 9). -/
def digitChar : Nat → Char
  | 0 => '0'
  | 1 => '1'
  | 2 => '2'
  | 3 => '3'
  | 4 => '4'
  | 5 => '5'
  | 6 => '6'
  | 7 => '7'
  | 8 => '8'
  | _ => '9'

/-- Lowercase hexadecimal digit character (as CPython's `'%04x'`). -/
def hexChar : Nat → Char
  | 0 => '0'
  | 1 => '1'
  | 2 => '2'
  | 3 => '3'
  | 4 => '4'
  | 5 => '5'
  | 6 => '6'
  | 7 => '7'
  | 8 => '8'
  | 9 => '9'
  | 10 => 'a'
  | 11 => 'b'
  | 12 => 'c'
  | 13 => 'd'
  | 14 => 'e'
  | _ => 'f'

/-- Decimal digits of `n`, most significant first; fuel-structural so it
computes by `rfl` (`f` bounds the digit count, `n + 1` always suffices). -/
def natCharsF : Nat → Nat → List Char
  | 0, _ => []
  | f + 1, n => if n < 10 then [digitChar n] else natCharsF f (n / 10) ++ [digitChar (n % 10)]

/-- Decimal representation of a natural number, as `repr(n)` in Python. -/
def natChars (n : Nat) : List Char := natCharsF (n + 1) n

/-- Decimal representation of an integer, as `repr(z)` in Python. -/
def intChars (z : Int) : List Char :=
  if z < 0 then '-' :: natChars z.natAbs else natChars z.toNat

/-- Four lowercase hex digits of `n < 0x10000`, as `'%04x' % n`. -/
def hex4 (n : Nat) : List Char :=
  [hexChar (n / 4096 % 16), hexChar (n / 256 % 16), hexChar (n / 16 % 16), hexChar (n % 16)]

/-- One character escaped as by CPython's `py_encode_basestring_ascii`
(`ensure_ascii=True`): the two-character escapes, printable ASCII kept
verbatim, everything else as `\uXXXX` (surrogate pairs above `0xFFFF`). -/
def escChar (c : Char) : List Char :=
  if c = '\\' then ['\\', '\\']
  else if c = '\x22' then ['\\', '\x22']
  else if c = '\x08' then ['\\', 'b']
  else if c = '\x0c' then ['\\', 'f']
  else if c = '\n' then ['\\', 'n']
  else if c = '\r' then ['\\', 'r']
  else if c = '\t' then ['\\', 't']
  else if 0x20 ≤ c.toNat ∧ c.toNat ≤ 0x7e then [c]
  else if c.toNat < 0x10000 then '\\' :: 'u' :: hex4 c.toNat
  else
    ('\\' :: 'u' :: hex4 (0xd800 + (c.toNat - 0x10000) / 1024))
      ++ ('\\' :: 'u' :: hex4 (0xdc00 + (c.toNat - 0x10000) % 1024))

/-- A string body, escaped character by character. -/
def escStr : List Char → List Char
  | [] => []
  | c :: cs => escChar c ++ escStr cs

/-- A JSON string literal: quote, escaped body, quote. -/
def strLit (s : List Char) : List Char := '\x22' :: (escStr s ++ ['\x22'])

/-- The two-space indentation for nesting level `lvl`. -/
def ind (lvl : Nat) : List Char := List.replicate (2 * lvl) ' '

/-- Newline followed by the level-`lvl` indentation (the `newline_indent`
of CPython's `_make_iterencode`). -/
def nlInd (lvl : Nat) : List Char := '\n' :: ind lvl

mutual

/-- Models `json.dumps(v, indent=2)` (with its default separators
`(',', ': ')` when an indent is given): `dumps1` renders a value whose
enclosing container sits at nesting level `lvl`, `dumpsItems` the
comma-and-newline-separated tail of an array, `dumpsMembers` the same
for an object, and `dumpsKV` a single key-value member. -/
def dumps1 : Json → Nat → List Char
  | .null, _ => ['n', 'u', 'l', 'l']
  | .bool true, _ => ['t', 'r', 'u', 'e']
  | .bool false, _ => ['f', 'a', 'l', 's', 'e']
  | .num z, _ => intChars z
  | .str s, _ => strLit s
  | .arr [], _ => ['[', ']']
  | .arr (x :: xs), lvl =>
    '[' :: (nlInd (lvl + 1) ++ dumps1 x (lvl + 1) ++ dumpsItems xs (lvl + 1)
      ++ nlInd lvl ++ [']'])
  | .obj [], _ => ['\x7b', '\x7d']
  | .obj (kv :: kvs), lvl =>
    '\x7b' :: (nlInd (lvl + 1) ++ dumpsKV kv (lvl + 1) ++ dumpsMembers kvs (lvl + 1)
      ++ nlInd lvl ++ ['\x7d'])

def dumpsKV : List Char × Json → Nat → List Char
  | (k, v), lvl => strLit k ++ (':' :: ' ' :: dumps1 v lvl)

def dumpsItems : List Json → Nat → List Char
  | [], _ => []
  | x :: xs, lvl => ',' :: (nlInd lvl ++ dumps1 x lvl ++ dumpsItems xs lvl)

def dumpsMembers : List (List Char × Json) → Nat → List Char
  | [], _ => []
  | kv :: kvs, lvl => ',' :: (nlInd lvl ++ dumpsKV kv lvl ++ dumpsMembers kvs lvl)

end

/-- Models `json.dumps(v, indent=2)` at the top level. -/
def dumps (v : Json) : List Char := dumps1 v 0

/-- No duplicate among a list of object keys. -/
def noDupKeys : List (List Char) → Bool
  | [] => true
  | k :: ks => !(ks.contains k) && noDupKeys ks

mutual

/-- A `Json` value is in the image of Python's data model when no object
carries a duplicate key (a `dict` cannot): `validJson` checks this
recursively. -/
def validJson : Json → Bool
  | .null => true
  | .bool _ => true
  | .num _ => true
  | .str _ => true
  | .arr xs => validArr xs
  | .obj kvs => noDupKeys (kvs.map Prod.fst) && validObj kvs

def validArr : List Json → Bool
  | [] => true
  | x :: xs => validJson x && validArr xs

def validObj : List (List Char × Json) → Bool
  | [] => true
  | kv :: kvs => validJson kv.2 && validObj kvs

end

/-- JSON whitespace, as CPython's `WHITESPACE_STR = ' \t\n\r'`. -/
def isJWs (c : Char) : Bool := c = ' ' || c = '\t' || c = '\n' || c = '\r'

/-- An ASCII decimal digit. -/
def isDig (c : Char) : Bool := '0' ≤ c && c ≤ '9'

/-- Drops leading JSON whitespace, as the scanner's `_w(s, idx).end()`. -/
def wsSkip : List Char → List Char
  | [] => []
  | c :: cs => if isJWs c then wsSkip cs else c :: cs

/-- Value of a hexadecimal digit character (either case). -/
def hexVal (c : Char) : Option Nat :=
  if '0' ≤ c && c ≤ '9' then some (c.toNat - 48)
  else if 'a' ≤ c && c ≤ 'f' then some (c.toNat - 87)
  else if 'A' ≤ c && c ≤ 'F' then some (c.toNat - 55)
  else none

/-- The character for a two-character escape, as CPython's `BACKSLASH`
dict in `json/decoder.py`. -/
def escDecode : Char → Option Char
  | '\x22' => some '\x22'
  | '\\' => some '\\'
  | '/' => some '/'
  | 'b' => some '\x08'
  | 'f' => some '\x0c'
  | 'n' => some '\n'
  | 'r' => some '\r'
  | 't' => some '\t'
  | _ => none

/-- Models `py_scanstring` (strict mode) after the opening quote: stops
at the closing quote, rejects raw control characters, decodes the
two-character escapes and `\uXXXX` (combining surrogate pairs).  Lone
surrogates — which CPython would admit into the `str` — have no `Char`
representative, so they are rejected here; `json.dumps` output never
contains them, so the divergence is unreachable from rendered text. -/
def scanString : List Char → Option (List Char × List Char)
  | [] => none
  | '\x22' :: r => some ([], r)
  | '\\' :: 'u' :: h1 :: h2 :: h3 :: h4 :: r3 =>
    match hexVal h1, hexVal h2, hexVal h3, hexVal h4 with
    | some a, some b, some c2, some d =>
      let uni := ((a * 16 + b) * 16 + c2) * 16 + d
      if 0xd800 ≤ uni ∧ uni ≤ 0xdbff then
        match r3 with
        | '\\' :: 'u' :: g1 :: g2 :: g3 :: g4 :: r4 =>
          match hexVal g1, hexVal g2, hexVal g3, hexVal g4 with
          | some a2, some b2, some c3, some d2 =>
            let uni2 := ((a2 * 16 + b2) * 16 + c3) * 16 + d2
            if 0xdc00 ≤ uni2 ∧ uni2 ≤ 0xdfff then
              match scanString r4 with
              | some (cs, rest) =>
                some (Char.ofNat (0x10000 + ((uni - 0xd800) * 1024 + (uni2 - 0xdc00)))
                  :: cs, rest)
              | none => none
            else none
          | _, _, _, _ => none
        | _ => none
      else if 0xdc00 ≤ uni ∧ uni ≤ 0xdfff then none
      else
        match scanString r3 with
        | some (cs, rest) => some (Char.ofNat uni :: cs, rest)
        | none => none
    | _, _, _, _ => none
  | '\\' :: e :: r2 =>
    match escDecode e with
    | some d =>
      match scanString r2 with
      | some (cs, rest) => some (d :: cs, rest)
      | none => none
    | none => none
  | c :: r =>
    if c.toNat < 0x20 then none
    else
      match scanString r with
      | some (cs, rest) => some (c :: cs, rest)
      | none => none

/-- Accumulating decimal value of a digit run,
`int(''.join(ds))` when every character is a digit. -/
def digitsVal (ds : List Char) : Nat := ds.foldl (fun a c => a * 10 + (c.toNat - 48)) 0

/-- The integer part of CPython's `NUMBER_RE`, `(?:0|[1-9]\d*)`: a lone
`0`, or a maximal nonempty digit run not starting with `0`. -/
def scanUInt : List Char → Option (Nat × List Char)
  | [] => none
  | c :: r =>
    if c = '0' then some (0, r)
    else if isDig c then
      some (digitsVal (List.takeWhile isDig (c :: r)), List.dropWhile isDig (c :: r))
    else none

/-- Whether an exponent tail `[-+]?\d+` follows. -/
def expTail : List Char → Bool
  | [] => false
  | '+' :: c :: _ => isDig c
  | '-' :: c :: _ => isDig c
  | c :: _ => isDig c

/-- Whether a fractional part `\.\d+` or exponent `[eE][-+]?\d+` follows
the integer part — if so the CPython scanner builds a float, which this
embedding does not model, so the number is rejected. -/
def floatish : List Char → Bool
  | '.' :: c :: _ => isDig c
  | 'e' :: r => expTail r
  | 'E' :: r => expTail r
  | _ => false

/-- Models a `NUMBER_RE` match producing an `int` (optional minus then
integer part, no fractional part or exponent following). -/
def scanNumber (s : List Char) : Option (Json × List Char) :=
  match s with
  | [] => none
  | c :: r =>
    if c = '-' then
      match scanUInt r with
      | some (n, r2) => if floatish r2 then none else some (.num (-(n : Int)), r2)
      | none => none
    else
      match scanUInt (c :: r) with
      | some (n, r2) => if floatish r2 then none else some (.num ((n : Int)), r2)
      | none => none

/-- In-place insertion into an association list: Python `dict` update
semantics (an existing key keeps its position, the value is replaced). -/
def dictInsert : List (List Char × Json) → List Char → Json → List (List Char × Json)
  | [], k, v => [(k, v)]
  | (k0, v0) :: rest, k, v =>
    if k0 = k then (k0, v) :: rest else (k0, v0) :: dictInsert rest k v

/-- Models `dict(pairs)`: left fold of `dictInsert` over the parsed
member list (first occurrence keeps the position, last value wins). -/
def mkDict : List (List Char × Json) → List (List Char × Json) → List (List Char × Json)
  | acc, [] => acc
  | acc, (k, v) :: rest => mkDict (dictInsert acc k v) rest

/-- The dispatch of the CPython scanner's `_scan_once` (at an exact
position, no leading whitespace skip): string, object, array, the three
constants, then the number grammar.  `NaN`/`Infinity` (floats) are
outside the embedding and rejected.  The two parameters stand for the
recursive entries into the array and object loops at the remaining
recursion budget. -/
def scanValueBody (scanI : List Char → Option (List Json × List Char))
    (scanM : List Char → Option (List (List Char × Json) × List Char)) :
    List Char → Option (Json × List Char)
  | '\x22' :: r =>
    match scanString r with
    | some (cs, rest) => some (.str cs, rest)
    | none => none
  | '\x7b' :: r =>
    match wsSkip r with
    | '\x7d' :: r2 => some (.obj [], r2)
    | s2 =>
      match scanM s2 with
      | some (kvs, rest) => some (.obj (mkDict [] kvs), rest)
      | none => none
  | '[' :: r =>
    match wsSkip r with
    | ']' :: r2 => some (.arr [], r2)
    | s2 =>
      match scanI s2 with
      | some (xs, rest) => some (.arr xs, rest)
      | none => none
  | 'n' :: 'u' :: 'l' :: 'l' :: r2 => some (.null, r2)
  | 't' :: 'r' :: 'u' :: 'e' :: r2 => some (.bool true, r2)
  | 'f' :: 'a' :: 'l' :: 's' :: 'e' :: r2 => some (.bool false, r2)
  | s => scanNumber s

/-- One pass of the `JSONArray` loop after the empty-array check: value,
whitespace, then `]` to finish or `,` and whitespace to continue. -/
def scanItemsBody (scanV : List Char → Option (Json × List Char))
    (scanI : List Char → Option (List Json × List Char))
    (s : List Char) : Option (List Json × List Char) :=
  match scanV s with
  | none => none
  | some (v, r) =>
    match wsSkip r with
    | ']' :: r2 => some ([v], r2)
    | ',' :: r2 =>
      match scanI (wsSkip r2) with
      | some (vs, r3) => some (v :: vs, r3)
      | none => none
    | _ => none

/-- One pass of the `JSONObject` loop after the empty-object check: a
quoted key, whitespace, `:`, whitespace, value, whitespace, then `}` to
finish or `,` and whitespace to continue with the next key. -/
def scanMembersBody (scanV : List Char → Option (Json × List Char))
    (scanM : List Char → Option (List (List Char × Json) × List Char)) :
    List Char → Option (List (List Char × Json) × List Char)
  | '\x22' :: r =>
    match scanString r with
    | none => none
    | some (k, r1) =>
      match wsSkip r1 with
      | ':' :: r2 =>
        match scanV (wsSkip r2) with
        | none => none
        | some (v, r3) =>
          match wsSkip r3 with
          | '\x7d' :: r4 => some ([(k, v)], r4)
          | ',' :: r4 =>
            match scanM (wsSkip r4) with
            | some (kvs, r5) => some ((k, v) :: kvs, r5)
            | none => none
          | _ => none
      | _ => none
  | _ => none

mutual

/-- The scanner's `_scan_once`, structurally on fuel (see
`scanValueBody`). -/
def scanValue : Nat → List Char → Option (Json × List Char)
  | 0, _ => none
  | f + 1, s => scanValueBody (scanItems f) (scanMembers f) s

/-- The `JSONArray` loop (see `scanItemsBody`). -/
def scanItems : Nat → List Char → Option (List Json × List Char)
  | 0, _ => none
  | f + 1, s => scanItemsBody (scanValue f) (scanItems f) s

/-- The `JSONObject` loop (see `scanMembersBody`). -/
def scanMembers : Nat → List Char → Option (List (List Char × Json) × List Char)
  | 0, _ => none
  | f + 1, s => scanMembersBody (scanValue f) (scanMembers f) s

end

/-- Models `json.loads` on text (`JSONDecoder.decode`): skip leading
whitespace, scan one value, skip trailing whitespace, and reject any
extra data.  The fuel `s.length + 1` dominates any nesting depth the
input can express, so it never runs out on a parse that CPython (absent
its recursion limit) would complete. -/
def loads (s : List Char) : Option Json :=
  match scanValue (s.length + 1) (wsSkip s) with
  | none => none
  | some (v, r) => if wsSkip r = [] then some v else none

/-- A byte of file content. -/
abbrev Byte := Fin 256

/-- Strict UTF-8 decoding of a byte (as `bytes.decode('utf-8')` inside
`json.loads`): rejects truncated sequences, overlong encodings, encoded
surrogates and code points beyond `0x10FFFF`. -/
def utf8Decode : List Byte → Option (List Char)
  | [] => some []
  | b0 :: rest =>
    if b0.val ≤ 0x7f then
      match utf8Decode rest with
      | some cs => some (Char.ofNat b0.val :: cs)
      | none => none
    else if 0xc2 ≤ b0.val ∧ b0.val ≤ 0xdf then
      match rest with
      | b1 :: rest2 =>
        if 0x80 ≤ b1.val ∧ b1.val ≤ 0xbf then
          match utf8Decode rest2 with
          | some cs => some (Char.ofNat ((b0.val - 0xc0) * 64 + (b1.val - 0x80)) :: cs)
          | none => none
        else none
      | [] => none
    else if 0xe0 ≤ b0.val ∧ b0.val ≤ 0xef then
      match rest with
      | b1 :: b2 :: rest3 =>
        if (if b0.val = 0xe0 then 0xa0 ≤ b1.val ∧ b1.val ≤ 0xbf
            else if b0.val = 0xed then 0x80 ≤ b1.val ∧ b1.val ≤ 0x9f
            else 0x80 ≤ b1.val ∧ b1.val ≤ 0xbf)
            ∧ 0x80 ≤ b2.val ∧ b2.val ≤ 0xbf then
          match utf8Decode rest3 with
          | some cs =>
            some (Char.ofNat ((b0.val - 0xe0) * 4096 + (b1.val - 0x80) * 64 + (b2.val - 0x80))
              :: cs)
          | none => none
        else none
      | _ => none
    else if 0xf0 ≤ b0.val ∧ b0.val ≤ 0xf4 then
      match rest with
      | b1 :: b2 :: b3 :: rest4 =>
        if (if b0.val = 0xf0 then 0x90 ≤ b1.val ∧ b1.val ≤ 0xbf
            else if b0.val = 0xf4 then 0x80 ≤ b1.val ∧ b1.val ≤ 0x8f
            else 0x80 ≤ b1.val ∧ b1.val ≤ 0xbf)
            ∧ 0x80 ≤ b2.val ∧ b2.val ≤ 0xbf ∧ 0x80 ≤ b3.val ∧ b3.val ≤ 0xbf then
          match utf8Decode rest4 with
          | some cs =>
            some (Char.ofNat ((b0.val - 0xf0) * 262144 + (b1.val - 0x80) * 4096
              + (b2.val - 0x80) * 64 + (b3.val - 0x80)) :: cs)
          | none => none
        else none
      | _ => none
    else none

/-- Models `json.loads` applied to a `bytes` object: UTF-8 decode, then
parse (the script's chunks carry no UTF-16/32 byte-order mark, so the
`detect_encoding` step always selects UTF-8 here). -/
def loadsBytes (bs : List Byte) : Option Json :=
  match utf8Decode bs with
  | some s => loads s
  | none => none

/-- Outcome of running the script: `exit code stdout` for termination
via `sys.exit` or falling off the end, `exc stdout` for an uncaught
exception (which CPython reports on stderr with a nonzero status). -/
inductive ProgResult where
  | exit (code : Nat) (stdout : List Char)
  | exc (stdout : List Char)
deriving DecidableEq

/-- The usage line printed when no argument is given (line 8). -/
def usageMsg : List Char := "Usage: ./print_glb_header.py <file.glb>\n".data

/-- The magic-mismatch message (line 25). -/
def magicMsg : List Char := "The provided file does not appear to be a glB file\n".data

/-- The version-mismatch message (line 28). -/
def versionMsg : List Char := "The provided file is not glTF version 2\n".data

/-- The chunk-type-mismatch message (line 31). -/
def chunkTypeMsg : List Char := "Invalid glB: The first chunk of the glB file is not a JSON chunk!\n".data

/-- The byte at index `i` of the content (`0` past the end; only used
under a length guard, matching `struct.unpack`'s exact-length check). -/
def byteAt (content : List Byte) (i : Nat) : Nat := (content.getD i 0).val

/-- The little-endian u32 at offset `off`, as one field of
`struct.unpack("<IIIII", content[0:20])` (line 22). -/
def readU32 (content : List Byte) (off : Nat) : Nat :=
  byteAt content off + 256 * byteAt content (off + 1) + 65536 * byteAt content (off + 2)
    + 16777216 * byteAt content (off + 3)

/-- The byte range `content[20:20+header[3]]` (line 35): a Python slice,
so it silently clamps to the end of the file. -/
def jsonSlice (content : List Byte) : List Byte := (content.drop 20).take (readU32 content 12)

/-- Models lines 12-36 of the script on the content of the opened file:
`struct.unpack` fails on fewer than 20 bytes (`content[0:20]` clamps, so
the slice is short and unpack raises `struct.error`); then the magic,
version and chunk-type checks each print their message and
`sys.exit(1)`; then `json.loads` on the slice — an uncaught decode error
if it fails, otherwise `print(json.dumps(jsonChunk, indent=2))` and a
normal exit with status 0. -/
def runFile (content : List Byte) : ProgResult :=
  if content.length < 20 then .exc []
  else if readU32 content 0 ≠ 0x46546C67 then .exit 1 magicMsg
  else if readU32 content 4 ≠ 2 then .exit 1 versionMsg
  else if readU32 content 16 ≠ 0x4E4F534A then .exit 1 chunkTypeMsg
  else
    match loadsBytes (jsonSlice content) with
    | none => .exc []
    | some v => .exit 0 (dumps v ++ ['\n'])

/-- Models the whole script: `sys.argv` (program name included) and a
read-only file system mapping names to contents.  `len(sys.argv) == 1`
prints the usage line and exits with 1 before touching any file;
otherwise `sys.argv[1]` is opened (`IndexError` on an impossible empty
`argv`, `FileNotFoundError` when the file is absent — both uncaught)
and its full content processed by `runFile`. -/
def mainProg (argv : List String) (fs : String → Option (List Byte)) : ProgResult :=
  if argv.length = 1 then .exit 1 usageMsg
  else
    match argv[1]? with
    | none => .exc []
    | some glbFile =>
      match fs glbFile with
      | none => .exc []
      | some content => runFile content

/-- The continuations that can follow a rendered value inside
`json.dumps(indent=2)` output: end of input, a comma, or the newline
that starts the indentation before a closing bracket.  None of these can
extend a number, so the scanner stops exactly at the value's end. -/
def tailOk : List Char → Bool
  | [] => true
  | c :: _ => c = ',' || c = '\n'

/-- The characters that can start a rendered JSON value. -/
def startsValue (c : Char) : Bool :=
  c = 'n' || c = 't' || c = 'f' || c = '\x22' || c = '[' || c = '\x7b' || c = '-' || isDig c

/-! ### General lemmas about the byte-level reads -/

theorem byteAt_eq_of_take_eq {c1 c2 : List Byte} {n i : Nat}
    (h : c1.take n = c2.take n) (hi : i < n) : byteAt c1 i = byteAt c2 i := by
  have hq : c1[i]? = c2[i]? := by
    have hc := congrArg (fun l => l[i]?) h
    simpa [List.getElem?_take, hi] using hc
  simp [byteAt, List.getD_eq_getElem?_getD, hq]

theorem byteAt_eq_of_drop_eq {c1 c2 : List Byte} {n i : Nat}
    (h : c1.drop n = c2.drop n) (hi : n ≤ i) : byteAt c1 i = byteAt c2 i := by
  have hq : c1[n + (i - n)]? = c2[n + (i - n)]? := by
    have hc := congrArg (fun l => l[i - n]?) h
    simpa [List.getElem?_drop] using hc
  have hni : n + (i - n) = i := by omega
  rw [hni] at hq
  simp [byteAt, List.getD_eq_getElem?_getD, hq]

theorem readU32_eq_of_take_eq {c1 c2 : List Byte} {n off : Nat}
    (h : c1.take n = c2.take n) (hi : off + 4 ≤ n) : readU32 c1 off = readU32 c2 off := by
  unfold readU32
  rw [byteAt_eq_of_take_eq h (by omega), byteAt_eq_of_take_eq h (by omega),
    byteAt_eq_of_take_eq h (by omega), byteAt_eq_of_take_eq h (by omega)]

theorem readU32_eq_of_drop_eq {c1 c2 : List Byte} {n off : Nat}
    (h : c1.drop n = c2.drop n) (hi : n ≤ off) : readU32 c1 off = readU32 c2 off := by
  unfold readU32
  rw [byteAt_eq_of_drop_eq h (by omega), byteAt_eq_of_drop_eq h (by omega),
    byteAt_eq_of_drop_eq h (by omega), byteAt_eq_of_drop_eq h (by omega)]

/-- On a file of at least 20 bytes the `struct.unpack` guard passes and
`runFile` proceeds to the three validations and the JSON chunk. -/
theorem runFile_unfold_ge {c : List Byte} (h : 20 ≤ c.length) :
    runFile c =
      if readU32 c 0 ≠ 0x46546C67 then .exit 1 magicMsg
      else if readU32 c 4 ≠ 2 then .exit 1 versionMsg
      else if readU32 c 16 ≠ 0x4E4F534A then .exit 1 chunkTypeMsg
      else
        match loadsBytes (jsonSlice c) with
        | none => .exc []
        | some v => .exit 0 (dumps v ++ ['\n']) := by
  unfold runFile
  rw [if_neg (by omega)]

/-- On files of at least 20 bytes, `runFile` only looks at the four
header fields it uses and at the JSON slice. -/
theorem runFile_congr {c1 c2 : List Byte}
    (h1 : 20 ≤ c1.length) (h2 : 20 ≤ c2.length)
    (h0 : readU32 c1 0 = readU32 c2 0) (h4 : readU32 c1 4 = readU32 c2 4)
    (h16 : readU32 c1 16 = readU32 c2 16) (hsl : jsonSlice c1 = jsonSlice c2) :
    runFile c1 = runFile c2 := by
  rw [runFile_unfold_ge h1, runFile_unfold_ge h2, h0, h4, h16, hsl]

/-- `runFile` never reports the usage message: the argument check happens
before the file is opened and all later `sys.exit(1)` messages differ. -/
theorem runFile_ne_usage (content : List Byte) :
    runFile content ≠ .exit 1 usageMsg := by
  unfold runFile
  split_ifs with h1 h2 h3 h4
  · simp
  · decide
  · decide
  · decide
  · split
    · simp
    · simp [ProgResult.exit.injEq]

/-- Two or more command-line arguments: the length-1 check fails and the
program reads only `sys.argv[1]`. -/
theorem mainProg_cons_cons (a b : String) (rest : List String)
    (fs : String → Option (List Byte)) :
    mainProg (a :: b :: rest) fs
      = match fs b with
        | none => ProgResult.exc []
        | some content => runFile content := by
  unfold mainProg
  rw [if_neg (by simp only [List.length_cons]; omega)]
  simp only [List.getElem?_cons_succ, List.getElem?_cons_zero]

/-! ### Claim theorems -/

/-- A minimal well-formed glB file: magic, version 2, total length 28,
chunk length 4, JSON chunk type, then the payload `null`. -/
def glbNull : List Byte :=
  [0x67, 0x6C, 0x54, 0x46, 2, 0, 0, 0, 28, 0, 0, 0, 4, 0, 0, 0,
   0x4A, 0x53, 0x4F, 0x4E, 110, 117, 108, 108]

/-- C2: on a file of at least 20 bytes the three validations run in the
order magic, version, chunk type; the first failing check prints its own
message and exits with code 1, the later checks never run and no JSON is
printed; the three messages are pairwise distinct. -/
theorem header_checks_in_order (content : List Byte) (hlen : 20 ≤ content.length) :
    (readU32 content 0 ≠ 0x46546C67 → runFile content = .exit 1 magicMsg)
    ∧ (readU32 content 0 = 0x46546C67 → readU32 content 4 ≠ 2 →
        runFile content = .exit 1 versionMsg)
    ∧ (readU32 content 0 = 0x46546C67 → readU32 content 4 = 2 →
        readU32 content 16 ≠ 0x4E4F534A → runFile content = .exit 1 chunkTypeMsg)
    ∧ magicMsg ≠ versionMsg ∧ magicMsg ≠ chunkTypeMsg ∧ versionMsg ≠ chunkTypeMsg := by
  refine ⟨?_, ?_, ?_, by decide, by decide, by decide⟩
  · intro hm
    unfold runFile
    rw [if_neg (by omega), if_pos hm]
  · intro hm hv
    unfold runFile
    rw [if_neg (by omega), if_neg (not_not_intro hm), if_pos hv]
  · intro hm hv hc
    unfold runFile
    rw [if_neg (by omega), if_neg (not_not_intro hm), if_neg (not_not_intro hv), if_pos hc]

theorem header_checks_in_order_witness :
    runFile (List.replicate 20 0) = .exit 1 magicMsg :=
  (header_checks_in_order (List.replicate 20 0) (by decide)).1 (by decide)

/-- C3: a file shorter than 20 bytes makes `struct.unpack` raise
`struct.error` (the slice `content[0:20]` comes up short): an uncaught
failure before any validation runs and before anything is printed. -/
theorem short_file_struct_error (content : List Byte) (h : content.length < 20) :
    runFile content = .exc [] := by
  unfold runFile
  rw [if_pos h]

theorem short_file_struct_error_witness : runFile [] = .exc [] :=
  short_file_struct_error [] (by decide)

/-- C5: invoked with zero positional arguments (`len(sys.argv) == 1`) the
program prints the usage line and exits with code 1; the result does not
depend on the file system `fs`, so no file is opened or read. -/
theorem no_args_usage (argv : List String) (fs : String → Option (List Byte))
    (h : argv.length = 1) :
    mainProg argv fs = .exit 1 usageMsg := by
  unfold mainProg
  rw [if_pos h]

theorem no_args_usage_witness :
    mainProg ["./print_glb_header.py"] (fun _ => none) = .exit 1 usageMsg :=
  no_args_usage _ _ (by decide)

/-- C7: the `totalLength` field (bytes 8-11) is read but never used: two
file contents of at least 20 bytes that agree outside bytes 8-11 produce
the same result (output, error behaviour and exit code), so `totalLength`
is in particular never compared with the actual file size. -/
theorem totalLength_unused (c1 c2 : List Byte)
    (h1 : 20 ≤ c1.length) (h2 : 20 ≤ c2.length)
    (ht : c1.take 8 = c2.take 8) (hd : c1.drop 12 = c2.drop 12) :
    runFile c1 = runFile c2 := by
  have hdrop20 : c1.drop 20 = c2.drop 20 := by
    have hc := congrArg (List.drop 8) hd
    rwa [List.drop_drop, List.drop_drop] at hc
  have h12 : readU32 c1 12 = readU32 c2 12 := readU32_eq_of_drop_eq hd (by omega)
  refine runFile_congr h1 h2 (readU32_eq_of_take_eq ht (by omega))
    (readU32_eq_of_take_eq ht (by omega)) (readU32_eq_of_drop_eq hd (by omega)) ?_
  unfold jsonSlice
  rw [h12, hdrop20]

theorem totalLength_unused_witness :
    runFile (List.replicate 20 0)
      = runFile [0, 0, 0, 0, 0, 0, 0, 0, 9, 9, 9, 9, 0, 0, 0, 0, 0, 0, 0, 0] :=
  totalLength_unused _ _ (by decide) (by decide) (by decide) (by decide)

/-- C8: bytes beyond the first JSON chunk are never inspected: if a file
passes the header validations, any file agreeing with it on the byte
range `[0, 20 + chunkLength)` produces the identical result, whatever
trailing bytes (such as a BIN chunk) follow. -/
theorem trailing_bytes_ignored (c1 c2 : List Byte)
    (h1 : 20 ≤ c1.length)
    (hmagic : readU32 c1 0 = 0x46546C67)
    (hver : readU32 c1 4 = 2)
    (hct : readU32 c1 16 = 0x4E4F534A)
    (htake : c1.take (20 + readU32 c1 12) = c2.take (20 + readU32 c1 12)) :
    runFile c1 = runFile c2 := by
  have h2 : 20 ≤ c2.length := by
    have hc := congrArg List.length htake
    simp only [List.length_take] at hc
    omega
  have h12 : readU32 c1 12 = readU32 c2 12 := readU32_eq_of_take_eq htake (by omega)
  refine runFile_congr h1 h2 (readU32_eq_of_take_eq htake (by omega))
    (readU32_eq_of_take_eq htake (by omega)) (readU32_eq_of_take_eq htake (by omega)) ?_
  unfold jsonSlice
  rw [← h12, List.take_drop, List.take_drop, htake]

theorem trailing_bytes_ignored_witness :
    runFile glbNull = runFile (glbNull ++ [255]) :=
  trailing_bytes_ignored _ _ (by decide) (by decide) (by decide) (by decide) (by decide)

/-- C9: the usage error is reported exactly when zero positional
arguments are given (`len(sys.argv) == 1`); with two or more positional
arguments there is no usage error — every argument after the first is
silently ignored and the program behaves as if invoked with the first
alone. -/
theorem usage_error_iff_no_args :
    (∀ (argv : List String) (fs : String → Option (List Byte)),
      mainProg argv fs = .exit 1 usageMsg ↔ argv.length = 1)
    ∧ (∀ (a b : String) (rest : List String) (fs : String → Option (List Byte)),
      mainProg (a :: b :: rest) fs = mainProg [a, b] fs) := by
  constructor
  · intro argv fs
    constructor
    · intro h
      match argv with
      | [] => exact ProgResult.noConfusion h
      | [a] => rfl
      | a :: b :: rest =>
        rw [mainProg_cons_cons] at h
        exfalso
        cases hfb : fs b with
        | none =>
          rw [hfb] at h
          exact ProgResult.noConfusion h
        | some content =>
          rw [hfb] at h
          exact runFile_ne_usage content h
    · intro h
      unfold mainProg
      rw [if_pos h]
  · intro a b rest fs
    rw [mainProg_cons_cons, mainProg_cons_cons]

theorem digitChar_toNat (k : Nat) (h : k < 10) : (digitChar k).toNat = 48 + k := by
  interval_cases k <;> decide

theorem isDig_digitChar (k : Nat) (h : k < 10) : isDig (digitChar k) = true := by
  interval_cases k <;> decide

theorem natCharsF_fuel (n : Nat) : ∀ f g : Nat, n < f → n < g → natCharsF f n = natCharsF g n := by
  induction n using Nat.strong_induction_on with
  | _ n ih =>
    intro f g hf hg
    match f, g with
    | f + 1, g + 1 =>
      simp only [natCharsF]
      by_cases h10 : n < 10
      · simp [h10]
      · rw [if_neg h10, if_neg h10, ih (n / 10) (by omega) f g (by omega) (by omega)]

/-- One unfolding step of `natChars` in terms of itself. -/
theorem natChars_step (n : Nat) :
    natChars n = if n < 10 then [digitChar n] else natChars (n / 10) ++ [digitChar (n % 10)] := by
  unfold natChars
  rw [show natCharsF (n + 1) n
      = if n < 10 then [digitChar n] else natCharsF n (n / 10) ++ [digitChar (n % 10)] from rfl]
  by_cases h10 : n < 10
  · simp [h10]
  · rw [if_neg h10, if_neg h10, natCharsF_fuel (n / 10) n (n / 10 + 1) (by omega) (by omega)]

theorem natChars_ne_nil (n : Nat) : natChars n ≠ [] := by
  rw [natChars_step]
  by_cases h10 : n < 10 <;> simp [h10]

theorem natChars_digits (n : Nat) : ∀ c ∈ natChars n, isDig c = true := by
  induction n using Nat.strong_induction_on with
  | _ n ih =>
    intro c hc
    rw [natChars_step] at hc
    by_cases h10 : n < 10
    · rw [if_pos h10, List.mem_singleton] at hc
      exact hc ▸ isDig_digitChar n h10
    · rw [if_neg h10, List.mem_append] at hc
      rcases hc with hc | hc
      · exact ih (n / 10) (by omega) c hc
      · rw [List.mem_singleton] at hc
        exact hc ▸ isDig_digitChar (n % 10) (by omega)

theorem natChars_head (n : Nat) :
    ∃ c t, natChars n = c :: t ∧ isDig c = true := by
  match h : natChars n with
  | [] => exact absurd h (natChars_ne_nil n)
  | c :: t => exact ⟨c, t, rfl, natChars_digits n c (h ▸ List.mem_cons_self c t)⟩

theorem natChars_head_pos (n : Nat) (hn : 1 ≤ n) :
    ∃ c t, natChars n = c :: t ∧ isDig c = true ∧ c ≠ '0' := by
  induction n using Nat.strong_induction_on with
  | _ n ih =>
    rw [natChars_step]
    by_cases h10 : n < 10
    · refine ⟨digitChar n, [], by rw [if_pos h10], isDig_digitChar n h10, ?_⟩
      interval_cases n <;> simp_all <;> decide
    · obtain ⟨c, t, hct, hd, h0⟩ := ih (n / 10) (by omega) (by omega)
      exact ⟨c, t ++ [digitChar (n % 10)], by rw [if_neg h10, hct]; rfl, hd, h0⟩

theorem digitsVal_append_one (l : List Char) (d : Char) :
    digitsVal (l ++ [d]) = digitsVal l * 10 + (d.toNat - 48) := by
  unfold digitsVal
  rw [List.foldl_append]
  rfl

theorem digitsVal_natChars (n : Nat) : digitsVal (natChars n) = n := by
  induction n using Nat.strong_induction_on with
  | _ n ih =>
    rw [natChars_step]
    by_cases h10 : n < 10
    · rw [if_pos h10]
      show 0 * 10 + ((digitChar n).toNat - 48) = n
      rw [digitChar_toNat n h10]
      omega
    · rw [if_neg h10, digitsVal_append_one, ih (n / 10) (by omega),
        digitChar_toNat (n % 10) (by omega)]
      omega

/-- A digit cannot be any character that is not a digit. -/
theorem isDig_ne {c d : Char} (h : isDig c = true) (hd : isDig d = false) : c ≠ d := by
  intro he
  rw [he, hd] at h
  cases h

theorem isJWs_false_of_isDig {c : Char} (h : isDig c = true) : isJWs c = false := by
  rcases hw : isJWs c with _ | _
  · rfl
  · exfalso
    simp only [isJWs, Bool.or_eq_true, decide_eq_true_eq] at hw
    rcases hw with ((rfl | rfl) | rfl) | rfl <;> simp [isDig] at h

theorem takeWhile_digits_append (l : List Char) (rest : List Char)
    (hall : ∀ c ∈ l, isDig c = true)
    (hrest : ∀ c t, rest = c :: t → isDig c = false) :
    List.takeWhile isDig (l ++ rest) = l ∧ List.dropWhile isDig (l ++ rest) = rest := by
  induction l with
  | nil =>
    simp only [List.nil_append]
    match rest, hrest with
    | [], _ => exact ⟨rfl, rfl⟩
    | c :: t, hc =>
      have hcf := hc c t rfl
      exact ⟨by simp [List.takeWhile, hcf], by simp [List.dropWhile, hcf]⟩
  | cons c t ih =>
    have hc : isDig c = true := hall c (List.mem_cons_self c t)
    obtain ⟨h1, h2⟩ := ih (fun x hx => hall x (List.mem_cons_of_mem c hx))
    exact ⟨by simp [List.takeWhile, hc, h1], by simp [List.dropWhile, hc, h2]⟩

theorem tailOk_cases {rest : List Char} (h : tailOk rest = true) :
    rest = [] ∨ (∃ t, rest = ',' :: t) ∨ (∃ t, rest = '\n' :: t) := by
  match rest with
  | [] => exact Or.inl rfl
  | c :: t =>
    simp only [tailOk, Bool.or_eq_true, decide_eq_true_eq] at h
    rcases h with rfl | rfl
    · exact Or.inr (Or.inl ⟨t, rfl⟩)
    · exact Or.inr (Or.inr ⟨t, rfl⟩)

theorem tailOk_floatish {rest : List Char} (h : tailOk rest = true) :
    floatish rest = false := by
  rcases tailOk_cases h with rfl | ⟨t, rfl⟩ | ⟨t, rfl⟩ <;> rfl

theorem tailOk_head_not_dig {rest : List Char} (h : tailOk rest = true) :
    ∀ c t, rest = c :: t → isDig c = false := by
  intro c t hct
  rcases tailOk_cases h with rfl | ⟨t2, ht2⟩ | ⟨t2, ht2⟩
  · cases hct
  · rw [ht2] at hct
    cases hct
    decide
  · rw [ht2] at hct
    cases hct
    decide

/-- The number scanner inverts the decimal renderer for naturals. -/
theorem scanUInt_natChars (n : Nat) (rest : List Char) (hrest : tailOk rest = true) :
    scanUInt (natChars n ++ rest) = some (n, rest) := by
  by_cases hn : 1 ≤ n
  · obtain ⟨c, t, hct, hd, h0⟩ := natChars_head_pos n hn
    obtain ⟨htake, hdrop⟩ := takeWhile_digits_append (natChars n) rest (natChars_digits n)
      (tailOk_head_not_dig hrest)
    rw [hct] at htake hdrop ⊢
    rw [List.cons_append] at htake hdrop ⊢
    simp only [scanUInt]
    rw [if_neg h0, if_pos hd, htake, hdrop, ← hct, digitsVal_natChars]
  · have hz : n = 0 := by omega
    subst hz
    rw [show natChars 0 = ['0'] from rfl]
    rfl

/-- The number scanner inverts the integer renderer whenever the
remainder cannot extend the number. -/
theorem scanNumber_intChars (z : Int) (rest : List Char) (hrest : tailOk rest = true) :
    scanNumber (intChars z ++ rest) = some (.num z, rest) := by
  by_cases hz : z < 0
  · have harg : intChars z ++ rest = '-' :: (natChars z.natAbs ++ rest) := by
      simp [intChars, hz]
    rw [harg]
    simp only [scanNumber, if_pos rfl]
    rw [scanUInt_natChars z.natAbs rest hrest]
    have hza : -((z.natAbs : Nat) : Int) = z := by omega
    simp only [tailOk_floatish hrest, Bool.false_eq_true, if_false, if_true, hza]
  · have harg : intChars z ++ rest = natChars z.toNat ++ rest := by
      simp [intChars, hz]
    obtain ⟨c, t, hct, hd⟩ := natChars_head z.toNat
    have hne : c ≠ '-' := isDig_ne hd (by decide)
    rw [harg, hct, List.cons_append]
    simp only [scanNumber, if_neg hne]
    rw [← List.cons_append, ← hct, scanUInt_natChars z.toNat rest hrest]
    have hzt : ((z.toNat : Nat) : Int) = z := by omega
    simp [tailOk_floatish hrest, hzt]

/-! ### Whitespace skipping over rendered output -/

theorem wsSkip_all_ws (l rest : List Char) (h : ∀ c ∈ l, isJWs c = true) :
    wsSkip (l ++ rest) = wsSkip rest := by
  induction l with
  | nil => rfl
  | cons c t ih =>
    have hc := h c (List.mem_cons_self c t)
    simp only [List.cons_append, wsSkip, hc, if_pos]
    exact ih (fun x hx => h x (List.mem_cons_of_mem c hx))

theorem wsSkip_cons_false {c : Char} (t : List Char) (h : isJWs c = false) :
    wsSkip (c :: t) = c :: t := by
  simp [wsSkip, h]

theorem wsSkip_nlInd (lvl : Nat) (rest : List Char) :
    wsSkip (nlInd lvl ++ rest) = wsSkip rest := by
  refine wsSkip_all_ws (nlInd lvl) rest ?_
  intro c hc
  rcases List.mem_cons.mp hc with rfl | hc2
  · rfl
  · rw [List.eq_of_mem_replicate hc2]
    rfl

/-! ### The string escape and its inverse -/

theorem char_valid_nat (c : Char) :
    c.toNat < 0xd800 ∨ (0xdfff < c.toNat ∧ c.toNat < 0x110000) := c.valid

theorem hexVal_hexChar (d : Nat) (h : d < 16) : hexVal (hexChar d) = some d := by
  interval_cases d <;> decide

theorem hexVal_hexChar_mod (k : Nat) : hexVal (hexChar (k % 16)) = some (k % 16) :=
  hexVal_hexChar (k % 16) (Nat.mod_lt k (by omega))

theorem hex4_arith (n : Nat) (h : n < 0x10000) :
    ((n / 4096 % 16 * 16 + n / 256 % 16) * 16 + n / 16 % 16) * 16 + n % 16 = n := by
  omega

/-- Scanning one escaped character recovers it and continues. -/
theorem scanString_escChar (c : Char) (tail : List Char) :
    scanString (escChar c ++ tail)
      = match scanString tail with
        | some (cs, rest) => some (c :: cs, rest)
        | none => none := by
  by_cases h1 : c = '\\'
  · subst h1; simp [escChar, scanString, escDecode]
  by_cases h2 : c = '\x22'
  · subst h2; simp [escChar, scanString, escDecode]
  by_cases h3 : c = '\x08'
  · subst h3; simp [escChar, scanString, escDecode]
  by_cases h4 : c = '\x0c'
  · subst h4; simp [escChar, scanString, escDecode]
  by_cases h5 : c = '\n'
  · subst h5; simp [escChar, scanString, escDecode]
  by_cases h6 : c = '\r'
  · subst h6; simp [escChar, scanString, escDecode]
  by_cases h7 : c = '\t'
  · subst h7; simp [escChar, scanString, escDecode]
  unfold escChar
  rw [if_neg h1, if_neg h2, if_neg h3, if_neg h4, if_neg h5, if_neg h6, if_neg h7]
  by_cases hA : 0x20 ≤ c.toNat ∧ c.toNat ≤ 0x7e
  · rw [if_pos hA]
    show scanString (c :: tail) = _
    rw [scanString.eq_def]
    split
    next heq => exact absurd heq (by simp)
    next r heq => exact absurd (List.cons.inj heq).1 h2
    next a b c1 d r heq => exact absurd (List.cons.inj heq).1 h1
    next e r heq => exact absurd (List.cons.inj heq).1 h1
    next d tl hn1 hn2 hn3 heq =>
      obtain ⟨rfl, rfl⟩ := List.cons.inj heq
      rw [if_neg (by omega : ¬ c.toNat < 0x20)]
  · rw [if_neg hA]
    by_cases hB : c.toNat < 0x10000
    · rw [if_pos hB]
      have hv := char_valid_nat c
      simp only [hex4, List.cons_append, List.nil_append, scanString, hexVal_hexChar_mod]
      rw [hex4_arith c.toNat hB]
      rw [if_neg (by omega : ¬ (0xd800 ≤ c.toNat ∧ c.toNat ≤ 0xdbff)),
        if_neg (by omega : ¬ (0xdc00 ≤ c.toNat ∧ c.toNat ≤ 0xdfff)),
        Char.ofNat_toNat]
    · rw [if_neg hB]
      have hv := char_valid_nat c
      have hm : c.toNat - 0x10000 < 0x100000 := by omega
      simp only [hex4, List.cons_append, List.nil_append, scanString, hexVal_hexChar_mod]
      rw [hex4_arith (0xd800 + (c.toNat - 0x10000) / 1024) (by omega),
        hex4_arith (0xdc00 + (c.toNat - 0x10000) % 1024) (by omega)]
      rw [if_pos (by omega : 0xd800 ≤ 0xd800 + (c.toNat - 0x10000) / 1024
          ∧ 0xd800 + (c.toNat - 0x10000) / 1024 ≤ 0xdbff)]
      rw [if_pos (by omega : 0xdc00 ≤ 0xdc00 + (c.toNat - 0x10000) % 1024
          ∧ 0xdc00 + (c.toNat - 0x10000) % 1024 ≤ 0xdfff)]
      have hcomb : 0x10000 + ((0xd800 + (c.toNat - 0x10000) / 1024 - 0xd800) * 1024
          + (0xdc00 + (c.toNat - 0x10000) % 1024 - 0xdc00)) = c.toNat := by omega
      rw [hcomb, Char.ofNat_toNat]

/-- Scanning an escaped string body stops exactly at the closing quote. -/
theorem scanString_escStr (s : List Char) : ∀ rest : List Char,
    scanString (escStr s ++ '\x22' :: rest) = some (s, rest) := by
  induction s with
  | nil =>
    intro rest
    simp [escStr, scanString]
  | cons c cs ih =>
    intro rest
    rw [show escStr (c :: cs) ++ '\x22' :: rest = escChar c ++ (escStr cs ++ '\x22' :: rest) by
      simp [escStr, List.append_assoc]]
    rw [scanString_escChar, ih rest]

/-! ### Heads of rendered values -/

theorem startsValue_ne {c : Char} (h : startsValue c = true) {d : Char}
    (hd : startsValue d = false) : c ≠ d := by
  intro he
  rw [he, hd] at h
  cases h

theorem startsValue_not_ws {c : Char} (h : startsValue c = true) : isJWs c = false := by
  rcases hw : isJWs c with _ | _
  · rfl
  · exfalso
    simp only [isJWs, Bool.or_eq_true, decide_eq_true_eq] at hw
    rcases hw with ((rfl | rfl) | rfl) | rfl <;> exact absurd h (by decide)

theorem startsValue_isDig {c : Char} (h : isDig c = true) : startsValue c = true := by
  simp [startsValue, h]

theorem dumps1_head (v : Json) (lvl : Nat) :
    ∃ c t, dumps1 v lvl = c :: t ∧ startsValue c = true := by
  cases v with
  | null => exact ⟨'n', _, rfl, by decide⟩
  | bool b =>
    cases b with
    | true => exact ⟨'t', _, rfl, by decide⟩
    | false => exact ⟨'f', _, rfl, by decide⟩
  | num z =>
    by_cases hz : z < 0
    · refine ⟨'-', natChars z.natAbs, ?_, by decide⟩
      simp [dumps1, intChars, hz]
    · obtain ⟨c, t, hct, hd⟩ := natChars_head z.toNat
      refine ⟨c, t, ?_, startsValue_isDig hd⟩
      simp [dumps1, intChars, hz, hct]
  | str s => exact ⟨'\x22', _, rfl, by decide⟩
  | arr xs =>
    cases xs with
    | nil => exact ⟨'[', _, rfl, by decide⟩
    | cons x xs2 => exact ⟨'[', _, rfl, by decide⟩
  | obj kvs =>
    cases kvs with
    | nil => exact ⟨'\x7b', _, rfl, by decide⟩
    | cons kv kvs2 => exact ⟨'\x7b', _, rfl, by decide⟩

theorem wsSkip_dumps1 (v : Json) (lvl : Nat) (rest : List Char) :
    wsSkip (dumps1 v lvl ++ rest) = dumps1 v lvl ++ rest := by
  obtain ⟨c, t, hct, hs⟩ := dumps1_head v lvl
  rw [hct, List.cons_append, wsSkip_cons_false _ (startsValue_not_ws hs)]

/-! ### Dict construction is the identity on duplicate-free member lists -/

theorem noDupKeys_iff (l : List (List Char)) : noDupKeys l = true ↔ l.Nodup := by
  induction l with
  | nil => simp [noDupKeys]
  | cons k ks ih =>
    simp [noDupKeys, ih, List.elem_iff]

theorem dictInsert_not_mem (acc : List (List Char × Json)) (k : List Char) (v : Json)
    (h : ¬ k ∈ acc.map Prod.fst) : dictInsert acc k v = acc ++ [(k, v)] := by
  induction acc with
  | nil => rfl
  | cons kv rest ih =>
    obtain ⟨k0, v0⟩ := kv
    simp only [List.map_cons, List.mem_cons, not_or] at h
    simp only [dictInsert]
    rw [if_neg (fun he => h.1 he.symm), ih h.2]
    rfl

theorem mkDict_nodup : ∀ (pairs acc : List (List Char × Json)),
    ((acc ++ pairs).map Prod.fst).Nodup → mkDict acc pairs = acc ++ pairs
  | [], acc, _ => by simp [mkDict]
  | (k, v) :: rest, acc, h => by
    have hk : ¬ k ∈ acc.map Prod.fst := by
      simp only [List.map_append, List.map_cons] at h
      intro hmem
      exact (List.nodup_append.mp h).2.2 hmem (List.mem_cons_self k _)
    simp only [mkDict]
    rw [dictInsert_not_mem acc k v hk,
      mkDict_nodup rest (acc ++ [(k, v)]) (by simpa [List.append_assoc] using h)]
    simp [List.append_assoc]

/-! ### The fuel bound -/

theorem jsize_pos (v : Json) : 1 ≤ jsize v := by
  cases v <;> simp [jsize]

mutual

theorem jsize_le_dumps1 : ∀ (v : Json) (lvl : Nat), jsize v ≤ (dumps1 v lvl).length
  | .null, _ => by simp [jsize, dumps1]
  | .bool b, _ => by cases b <;> simp [jsize, dumps1]
  | .num z, _ => by
    simp only [jsize, dumps1]
    unfold intChars
    by_cases hz : z < 0
    · rw [if_pos hz]
      simp
    · rw [if_neg hz]
      have hl := List.length_pos.mpr (natChars_ne_nil z.toNat)
      omega
  | .str s, _ => by simp [jsize, dumps1, strLit]
  | .arr [], _ => by simp [jsize, jsizeA, dumps1]
  | .arr (x :: xs), lvl => by
    have h1 := jsize_le_dumps1 x (lvl + 1)
    have h2 := jsizeA_le_items xs (lvl + 1)
    simp only [jsize, jsizeA, dumps1, List.length_cons, List.length_append]
    omega
  | .obj [], _ => by simp [jsize, jsizeO, dumps1]
  | .obj ((k, w) :: kvs), lvl => by
    have h1 := jsize_le_dumps1 w (lvl + 1)
    have h2 := jsizeO_le_members kvs (lvl + 1)
    simp only [jsize, jsizeO, dumps1, dumpsKV, List.length_cons, List.length_append]
    omega
termination_by v _ => sizeOf v

theorem jsizeA_le_items : ∀ (xs : List Json) (lvl : Nat), jsizeA xs ≤ (dumpsItems xs lvl).length
  | [], _ => by simp [jsizeA, dumpsItems]
  | x :: xs, lvl => by
    have h1 := jsize_le_dumps1 x lvl
    have h2 := jsizeA_le_items xs lvl
    simp only [jsizeA, dumpsItems, List.length_cons, List.length_append]
    omega
termination_by xs _ => sizeOf xs

theorem jsizeO_le_members : ∀ (kvs : List (List Char × Json)) (lvl : Nat),
    jsizeO kvs ≤ (dumpsMembers kvs lvl).length
  | [], _ => by simp [jsizeO, dumpsMembers]
  | (k, w) :: kvs, lvl => by
    have h1 := jsize_le_dumps1 w lvl
    have h2 := jsizeO_le_members kvs lvl
    simp only [jsizeO, dumpsMembers, dumpsKV, List.length_cons, List.length_append]
    omega
termination_by kvs _ => sizeOf kvs

end

/-! ### The scanner inverts the renderer -/

theorem tailOk_comma (X : List Char) : tailOk (',' :: X) = true := by simp [tailOk]

theorem tailOk_nlInd (p : Nat) (X : List Char) : tailOk (nlInd p ++ X) = true := by
  simp [nlInd, tailOk]

theorem wsSkip_space (Y : List Char) : wsSkip (' ' :: Y) = wsSkip Y := by
  simp only [wsSkip]
  rw [if_pos (by decide : isJWs ' ' = true)]

theorem wsSkip_comma (t : List Char) : wsSkip (',' :: t) = ',' :: t :=
  wsSkip_cons_false t (by decide)

theorem wsSkip_colon (t : List Char) : wsSkip (':' :: t) = ':' :: t :=
  wsSkip_cons_false t (by decide)

theorem wsSkip_rbracket (t : List Char) : wsSkip (']' :: t) = ']' :: t :=
  wsSkip_cons_false t (by decide)

theorem wsSkip_rbrace (t : List Char) : wsSkip ('\x7d' :: t) = '\x7d' :: t :=
  wsSkip_cons_false t (by decide)

theorem wsSkip_dumpsKV (kv : List Char × Json) (lvl : Nat) (rest : List Char) :
    wsSkip (dumpsKV kv lvl ++ rest) = dumpsKV kv lvl ++ rest := by
  obtain ⟨k, w⟩ := kv
  simp only [dumpsKV, strLit, List.cons_append, List.append_assoc]
  rw [wsSkip_cons_false _ (by decide)]

theorem scanValue_succ (f : Nat) (s : List Char) :
    scanValue (f + 1) s = scanValueBody (scanItems f) (scanMembers f) s := by
  simp only [scanValue]

theorem scanItems_succ (f : Nat) (s : List Char) :
    scanItems (f + 1) s = scanItemsBody (scanValue f) (scanItems f) s := by
  simp only [scanItems]

theorem scanMembers_succ (f : Nat) (s : List Char) :
    scanMembers (f + 1) s = scanMembersBody (scanValue f) (scanMembers f) s := by
  simp only [scanMembers]

theorem intChars_head_ne (z : Int) :
    ∃ c t, intChars z = c :: t ∧ c ≠ '\x22' ∧ c ≠ '\x7b' ∧ c ≠ '[' ∧ c ≠ 'n' ∧ c ≠ 't'
      ∧ c ≠ 'f' := by
  unfold intChars
  by_cases hz : z < 0
  · rw [if_pos hz]
    exact ⟨'-', _, rfl, by decide, by decide, by decide, by decide, by decide, by decide⟩
  · rw [if_neg hz]
    obtain ⟨c, t, hct, hd⟩ := natChars_head z.toNat
    exact ⟨c, t, hct, isDig_ne hd (by decide), isDig_ne hd (by decide), isDig_ne hd (by decide),
      isDig_ne hd (by decide), isDig_ne hd (by decide), isDig_ne hd (by decide)⟩

/-- A value whose input starts with none of the scanner's dispatch
characters is handed to the number grammar. -/
theorem scanValueBody_to_scanNumber (scanI : List Char → Option (List Json × List Char))
    (scanM : List Char → Option (List (List Char × Json) × List Char))
    (c : Char) (t : List Char)
    (hq : c ≠ '\x22') (hb : c ≠ '\x7b') (hk : c ≠ '[')
    (hn : c ≠ 'n') (ht : c ≠ 't') (hf : c ≠ 'f') :
    scanValueBody scanI scanM (c :: t) = scanNumber (c :: t) := by
  rw [scanValueBody.eq_def]
  split
  next heq => exact absurd (List.cons.inj heq).1 hq
  next r heq => exact absurd (List.cons.inj heq).1 hb
  next r heq => exact absurd (List.cons.inj heq).1 hk
  next r2 heq => exact absurd (List.cons.inj heq).1 hn
  next r2 heq => exact absurd (List.cons.inj heq).1 ht
  next r2 heq => exact absurd (List.cons.inj heq).1 hf
  next s hn1 hn2 hn3 hn4 hn5 hn6 => rfl

mutual

/-- Scanning the rendered form of a duplicate-free value at any level
recovers the value exactly, leaving the remainder untouched, whenever
the remainder is one the renderer can produce (`tailOk`) and the fuel
covers the value's size. -/
theorem scanValue_dumps1 : ∀ (v : Json) (lvl f : Nat) (rest : List Char),
    jsize v ≤ f → validJson v = true → tailOk rest = true →
    scanValue f (dumps1 v lvl ++ rest) = some (v, rest)
  | v, lvl, 0, rest, hf, _, _ => by
    have := jsize_pos v
    omega
  | .null, lvl, f + 1, rest, _, _, _ => by
    simp only [dumps1, List.cons_append, List.nil_append, scanValue_succ, scanValueBody]
  | .bool true, lvl, f + 1, rest, _, _, _ => by
    simp only [dumps1, List.cons_append, List.nil_append, scanValue_succ, scanValueBody]
  | .bool false, lvl, f + 1, rest, _, _, _ => by
    simp only [dumps1, List.cons_append, List.nil_append, scanValue_succ, scanValueBody]
  | .num z, lvl, f + 1, rest, _, _, hrest => by
    obtain ⟨c, t, hct, h1, h2, h3, h4, h5, h6⟩ := intChars_head_ne z
    rw [show dumps1 (.num z) lvl = intChars z from rfl, hct, List.cons_append, scanValue_succ,
      scanValueBody_to_scanNumber _ _ c _ h1 h2 h3 h4 h5 h6, ← List.cons_append, ← hct,
      scanNumber_intChars z rest hrest]
  | .str s, lvl, f + 1, rest, _, _, _ => by
    rw [show dumps1 (.str s) lvl ++ rest = '\x22' :: (escStr s ++ ('\x22' :: rest)) by
      simp [dumps1, strLit]]
    rw [scanValue_succ]
    simp only [scanValueBody, scanString_escStr]
  | .arr [], lvl, f + 1, rest, _, _, _ => by
    simp only [dumps1, List.cons_append, List.nil_append, scanValue_succ, scanValueBody,
      wsSkip_rbracket]
  | .arr (x :: xs), lvl, f + 1, rest, hf, hval, hrest => by
    simp only [validJson, validArr, Bool.and_eq_true] at hval
    have hfA : jsizeA (x :: xs) ≤ f := by
      simp only [jsize] at hf
      omega
    have key := scanItems_dumps x xs lvl f rest hfA
      (by simp [validArr, hval.1, hval.2]) hrest
    rw [show dumps1 (.arr (x :: xs)) lvl ++ rest
        = '[' :: (nlInd (lvl + 1) ++ (dumps1 x (lvl + 1) ++ (dumpsItems xs (lvl + 1)
          ++ (nlInd lvl ++ (']' :: rest))))) by
      simp [dumps1, List.append_assoc]]
    rw [scanValue_succ]
    simp only [scanValueBody, wsSkip_nlInd, wsSkip_dumps1]
    obtain ⟨c, t, hct, hs⟩ := dumps1_head x (lvl + 1)
    rw [hct, List.cons_append]
    split
    next r2 heq =>
      exact absurd (List.cons.inj heq).1 (startsValue_ne hs (by decide))
    next s2 hns =>
      rw [← List.cons_append, ← hct]
      simp only [key]
  | .obj [], lvl, f + 1, rest, _, _, _ => by
    simp only [dumps1, List.cons_append, List.nil_append, scanValue_succ, scanValueBody,
      wsSkip_rbrace]
  | .obj ((k, w) :: kvs), lvl, f + 1, rest, hf, hval, hrest => by
    simp only [validJson, validObj, Bool.and_eq_true] at hval
    have hfO : jsizeO ((k, w) :: kvs) ≤ f := by
      simp only [jsize] at hf
      omega
    have key := scanMembers_dumps k w kvs lvl f rest hfO
      (by simp [validObj, hval.2.1, hval.2.2]) hrest
    have hnd : mkDict [] ((k, w) :: kvs) = (k, w) :: kvs := by
      have hmk := mkDict_nodup ((k, w) :: kvs) [] (by
        simpa using (noDupKeys_iff _).mp hval.1)
      simpa using hmk
    rw [show dumps1 (.obj ((k, w) :: kvs)) lvl ++ rest
        = '\x7b' :: (nlInd (lvl + 1) ++ (dumpsKV (k, w) (lvl + 1)
          ++ (dumpsMembers kvs (lvl + 1) ++ (nlInd lvl ++ ('\x7d' :: rest))))) by
      simp [dumps1, List.append_assoc]]
    rw [scanValue_succ]
    simp only [scanValueBody, wsSkip_nlInd, wsSkip_dumpsKV]
    rw [show dumpsKV (k, w) (lvl + 1) ++ (dumpsMembers kvs (lvl + 1)
        ++ (nlInd lvl ++ ('\x7d' :: rest)))
        = '\x22' :: (escStr k ++ ('\x22' :: (':' :: (' ' :: (dumps1 w (lvl + 1)
          ++ (dumpsMembers kvs (lvl + 1) ++ (nlInd lvl ++ ('\x7d' :: rest)))))))) by
      simp [dumpsKV, strLit, List.append_assoc]]
    split
    next r2 heq => exact absurd (List.cons.inj heq).1 (by decide)
    next s2 hns =>
      rw [show ('\x22' : Char) :: (escStr k ++ ('\x22' :: (':' :: (' ' :: (dumps1 w (lvl + 1)
          ++ (dumpsMembers kvs (lvl + 1) ++ (nlInd lvl ++ ('\x7d' :: rest))))))))
          = dumpsKV (k, w) (lvl + 1) ++ (dumpsMembers kvs (lvl + 1)
            ++ (nlInd lvl ++ ('\x7d' :: rest))) by
        simp [dumpsKV, strLit, List.append_assoc]]
      simp only [key, hnd]
termination_by v _ _ _ => sizeOf v

/-- Scanning a rendered nonempty item sequence (first item, rendered
tail, closing newline-indent and bracket) recovers the item list. -/
theorem scanItems_dumps : ∀ (x : Json) (xs : List Json) (p f : Nat) (rest : List Char),
    jsizeA (x :: xs) ≤ f → validArr (x :: xs) = true → tailOk rest = true →
    scanItems f (dumps1 x (p + 1) ++ (dumpsItems xs (p + 1) ++ (nlInd p ++ (']' :: rest))))
      = some (x :: xs, rest)
  | x, xs, p, 0, rest, hf, _, _ => by
    have := jsize_pos x
    simp only [jsizeA] at hf
    omega
  | x, [], p, f + 1, rest, hf, hval, hrest => by
    simp only [validArr, Bool.and_eq_true] at hval
    have hfx : jsize x ≤ f := by
      simp only [jsizeA] at hf
      omega
    have hv := scanValue_dumps1 x (p + 1) f (nlInd p ++ (']' :: rest)) hfx hval.1
      (tailOk_nlInd p _)
    simp only [dumpsItems, List.nil_append, scanItems_succ, scanItemsBody, hv, wsSkip_nlInd,
      wsSkip_rbracket]
  | x, y :: ys, p, f + 1, rest, hf, hval, hrest => by
    simp only [validArr, Bool.and_eq_true] at hval
    have hfx : jsize x ≤ f := by
      simp only [jsizeA] at hf
      omega
    have hfy : jsizeA (y :: ys) ≤ f := by
      simp only [jsizeA] at hf ⊢
      have := jsize_pos x
      omega
    have key := scanItems_dumps y ys p f rest hfy (by simp [validArr, hval.2]) hrest
    have hv := scanValue_dumps1 x (p + 1) f
      (',' :: (nlInd (p + 1) ++ (dumps1 y (p + 1) ++ (dumpsItems ys (p + 1)
        ++ (nlInd p ++ (']' :: rest)))))) hfx hval.1 (tailOk_comma _)
    rw [show dumps1 x (p + 1) ++ (dumpsItems (y :: ys) (p + 1) ++ (nlInd p ++ (']' :: rest)))
        = dumps1 x (p + 1) ++ (',' :: (nlInd (p + 1) ++ (dumps1 y (p + 1)
          ++ (dumpsItems ys (p + 1) ++ (nlInd p ++ (']' :: rest)))))) by
      simp [dumpsItems, List.append_assoc]]
    simp only [scanItems_succ, scanItemsBody, hv, wsSkip_comma, wsSkip_nlInd, wsSkip_dumps1,
      key]
termination_by x xs _ _ _ => sizeOf x + sizeOf xs

/-- Scanning a rendered nonempty member sequence (first key-value pair,
rendered tail, closing newline-indent and brace) recovers the raw member
list in order. -/
theorem scanMembers_dumps : ∀ (k : List Char) (w : Json) (kvs : List (List Char × Json))
    (p f : Nat) (rest : List Char),
    jsizeO ((k, w) :: kvs) ≤ f → validObj ((k, w) :: kvs) = true → tailOk rest = true →
    scanMembers f (dumpsKV (k, w) (p + 1) ++ (dumpsMembers kvs (p + 1)
      ++ (nlInd p ++ ('\x7d' :: rest))))
      = some ((k, w) :: kvs, rest)
  | k, w, kvs, p, 0, rest, hf, _, _ => by
    have := jsize_pos w
    simp only [jsizeO] at hf
    omega
  | k, w, [], p, f + 1, rest, hf, hval, hrest => by
    simp only [validObj, Bool.and_eq_true] at hval
    have hfw : jsize w ≤ f := by
      simp only [jsizeO] at hf
      omega
    have hv := scanValue_dumps1 w (p + 1) f (nlInd p ++ ('\x7d' :: rest)) hfw hval.1
      (tailOk_nlInd p _)
    rw [show dumpsKV (k, w) (p + 1) ++ (dumpsMembers [] (p + 1) ++ (nlInd p ++ ('\x7d' :: rest)))
        = '\x22' :: (escStr k ++ ('\x22' :: (':' :: (' ' :: (dumps1 w (p + 1)
          ++ (nlInd p ++ ('\x7d' :: rest))))))) by
      simp [dumpsKV, dumpsMembers, strLit, List.append_assoc]]
    simp only [scanMembers_succ, scanMembersBody, scanString_escStr, wsSkip_colon,
      wsSkip_space, wsSkip_dumps1, hv, wsSkip_nlInd, wsSkip_rbrace]
  | k, w, (k2, w2) :: kvs2, p, f + 1, rest, hf, hval, hrest => by
    simp only [validObj, Bool.and_eq_true] at hval
    have hfw : jsize w ≤ f := by
      simp only [jsizeO] at hf
      omega
    have hf2 : jsizeO ((k2, w2) :: kvs2) ≤ f := by
      simp only [jsizeO] at hf ⊢
      have := jsize_pos w
      omega
    have key := scanMembers_dumps k2 w2 kvs2 p f rest hf2
      (by simp [validObj, hval.2.1, hval.2.2]) hrest
    have hv := scanValue_dumps1 w (p + 1) f
      (',' :: (nlInd (p + 1) ++ (dumpsKV (k2, w2) (p + 1) ++ (dumpsMembers kvs2 (p + 1)
        ++ (nlInd p ++ ('\x7d' :: rest)))))) hfw hval.1 (tailOk_comma _)
    rw [show dumpsKV (k, w) (p + 1) ++ (dumpsMembers ((k2, w2) :: kvs2) (p + 1)
        ++ (nlInd p ++ ('\x7d' :: rest)))
        = '\x22' :: (escStr k ++ ('\x22' :: (':' :: (' ' :: (dumps1 w (p + 1)
          ++ (',' :: (nlInd (p + 1) ++ (dumpsKV (k2, w2) (p + 1)
            ++ (dumpsMembers kvs2 (p + 1) ++ (nlInd p ++ ('\x7d' :: rest))))))))))) by
      simp [dumpsKV, dumpsMembers, strLit, List.append_assoc]]
    simp only [scanMembers_succ, scanMembersBody, scanString_escStr, wsSkip_colon,
      wsSkip_space, wsSkip_dumps1, hv, wsSkip_comma, wsSkip_nlInd, wsSkip_dumpsKV, key]
termination_by k w kvs _ _ _ => sizeOf w + sizeOf kvs

end

end PyGlb
